import Mathlib

/-!
Verification of the `s3-readline` repository: a reader that fetches a remote
object in bounded byte ranges and splits the concatenated stream into
delimiter-separated records.

The embedding models object contents, chunks, delimiters and records as
`List Char` (the code works on JS strings; `readStream` concatenates the
streamed bytes into one string, which we model as the slice itself).
Network fetches are modelled as pure slices of the object's content; the
error-aware variant (`loopE`) takes a fetch oracle that may fail.

Sources embedded:
  * `src/s3-line-reader.ts`   — main variant (`getLines`): prepend-then-scan.
  * `src/unnamed/part_001`    — second variant (`getLines2`): incremental
    carry-over append.
  * `src/unnamed/part_000`    — options-object constructor and the cached
    generator wrapper (`mkReaderP0`, `getLinesCached`).
-/

namespace S3Readline

/-- JS `data.indexOf(delim)` on character lists: position of the leftmost
occurrence of `delim` in `data` (`none` for JS's `-1`).  As in JS,
the empty needle is found at position 0. -/
def jsIndexOf (delim data : List Char) : Option Nat :=
  if delim.isPrefixOf data then some 0
  else
    match data with
    | [] => none
    | _ :: rest => (jsIndexOf delim rest).map (· + 1)

/-- Inner scan loop of `getLines` in `src/s3-line-reader.ts` (lines 74–87):

```
while (data.length) {
  let nextNewline = data.indexOf(lineDelimiter);
  if (nextNewline === -1) { this.partial = data; break; }
  yield data.substring(0, nextNewline);
  data = data.substring(nextNewline + lineDelimiter.length);
}
```

Returns the yielded records and the value left in `this.partial` (the
carry), which is empty at loop entry because the caller has just cleared it.
The first argument is fuel; with a non-empty delimiter every iteration
consumes at least one character, so fuel `data.length` is exact
(see `scanF_eq`).  With an empty delimiter the JS loop never terminates
(it matches at position 0 and consumes nothing); the fuel cuts that
divergence off. -/
def scanF : Nat → List Char → List Char → List (List Char) × List Char
  | 0, _, data => ([], data)
  | n + 1, delim, data =>
    if data = [] then ([], [])
    else
      match jsIndexOf delim data with
      | none => ([], data)
      | some p =>
        let r := scanF n delim (data.drop (p + delim.length))
        (data.take p :: r.1, r.2)

/-- The inner scan loop at its canonical fuel. -/
def scanChunk (delim data : List Char) : List (List Char) × List Char :=
  scanF data.length delim data

/-- Outer fetch loop of `getLines` in `src/s3-line-reader.ts` (lines 48–87),
as a pure function of the object content.  Mirrors:

```
while (this.byteOffset < this.size) {
  let byteOffsetTop = this.byteOffset + this.bufferSize;
  if (byteOffsetTop > this.size) byteOffsetTop = this.size;
  const file = await this.s3.send(new GetObjectCommand({ ...,
    Range: `bytes=o-byteOffsetTop` }));
  this.byteOffset = byteOffsetTop + 1;
  if (!file.Body) break;
  let data = await this.readStream(file.Body);
  data = this.partial + data;
  this.partial = '';
  ... inner scan (scanChunk) ...
}
return this.partial;
```

The requested range is byte-inclusive on both ends, so a fetch returns the
slice `content[o ..= byteOffsetTop]`, i.e. `(content.drop o).take (top+1-o)`
(clamped at end of object); the store always returns a body for the ranges
this loop requests, so the `!file.Body` break never fires in the model.
Returns `((yielded records, returned terminal value), trace of byteOffset
values observed at each loop-condition check)`.  Fuel `content.length`
bounds the iteration count since `byteOffset` strictly increases
(see `loopF_eq`). -/
def loopF : Nat → List Char → List Char → Nat → Nat → List Char →
    (List (List Char) × List Char) × List Nat
  | 0, _, _, _, o, carry => (([], carry), [o])
  | n + 1, content, delim, bs, o, carry =>
    if o < content.length then
      let top := min (o + bs) content.length
      let chunk := (content.drop o).take (top + 1 - o)
      let s := scanChunk delim (carry ++ chunk)
      let r := loopF n content delim bs (top + 1) s.2
      ((s.1 ++ r.1.1, r.1.2), o :: r.2)
    else (([], carry), [o])

/-- Whole run of the main variant's `getLines`, including the cursor trace.
The size query (`headObject`) resolves to `content.length`. -/
def getLinesFull (content delim : List Char) (bs : Nat) :
    (List (List Char) × List Char) × List Nat :=
  loopF content.length content delim bs 0 []

/-- Records yielded and terminal value returned by the main variant's
`getLines` for a given object content, delimiter and `bufferSize`. -/
def getLines (content delim : List Char) (bs : Nat) :
    List (List Char) × List Char :=
  (getLinesFull content delim bs).1

/-- Successive values of `this.byteOffset` as observed at each check of the
outer loop condition of `getLines` (initial 0 included, final value
included). -/
def cursorTrace (content delim : List Char) (bs : Nat) : List Nat :=
  (getLinesFull content delim bs).2

/-- Reconstruction of the object from the reader's output: each yielded
record with its consumed delimiter re-inserted after it, followed by the
terminal value (equivalently, the records and the terminal joined with one
delimiter between consecutive values). -/
def reconstructOut (delim : List Char) : List (List Char) → List Char → List Char
  | [], t => t
  | r :: rs, t => r ++ delim ++ reconstructOut delim rs t

/-- Inner scan loop of the second variant, `src/unnamed/part_001`
(lines 66–97): the carry is not prepended to the incoming chunk; instead it
is appended to incrementally when no delimiter is found, and glued onto the
front of a found record:

```
while (data.length) {
  let nextNewline = data.indexOf(lineDelimiter);
  if (nextNewline === -1) {
    this.partial += data;
    if (this.partial.indexOf(lineDelimiter) !== -1) {
      data = this.partial; this.partial = ''; continue;
    }
    break;
  }
  let nextLine = data.substring(0, nextNewline);
  if (this.partial) { nextLine = this.partial + nextLine; this.partial = ''; }
  yield nextLine;
  data = data.substring(nextNewline + lineDelimiter.length);
}
```

State is `(carry, data)`; returns the yielded records and the final carry.
Fuel `2*(carry.length + data.length) + 2` always suffices: every `continue`
is immediately followed by a consuming match. -/
def scanVF : Nat → List Char → List Char → List Char → List (List Char) × List Char
  | 0, _, carry, data => ([], carry ++ data)
  | n + 1, delim, carry, data =>
    if data = [] then ([], carry)
    else
      match jsIndexOf delim data with
      | none =>
        let c2 := carry ++ data
        match jsIndexOf delim c2 with
        | some _ => scanVF n delim [] c2
        | none => ([], c2)
      | some p =>
        let line := if carry = [] then data.take p else carry ++ data.take p
        let r := scanVF n delim [] (data.drop (p + delim.length))
        (line :: r.1, r.2)

/-- The second variant's inner scan loop at its canonical fuel. -/
def scanV (delim carry data : List Char) : List (List Char) × List Char :=
  scanVF (2 * (carry.length + data.length) + 2) delim carry data

/-- Outer fetch loop of the second variant (`src/unnamed/part_001`,
lines 47–98).  Identical range arithmetic to `loopF`; the only difference
is that the carry is threaded into the inner scan instead of being
prepended to the chunk. -/
def loop2F : Nat → List Char → List Char → Nat → Nat → List Char →
    List (List Char) × List Char
  | 0, _, _, _, _, carry => ([], carry)
  | n + 1, content, delim, bs, o, carry =>
    if o < content.length then
      let top := min (o + bs) content.length
      let chunk := (content.drop o).take (top + 1 - o)
      let s := scanV delim carry chunk
      let r := loop2F n content delim bs (top + 1) s.2
      (s.1 ++ r.1, r.2)
    else ([], carry)

/-- Records yielded and terminal value returned by the second variant's
`getLines`. -/
def getLines2 (content delim : List Char) (bs : Nat) :
    List (List Char) × List Char :=
  loop2F content.length content delim bs 0 []

/-- Error-aware outer fetch loop of `getLines` (`src/s3-line-reader.ts`,
lines 48–90, with `readStream`, lines 92–101): the range fetch is an oracle
`fetch start top` returning either the chunk text or a failure of type `ε`.
The code has no `try`/`catch` and no retry: a rejected promise from
`s3.send` or `readStream` propagates out of the async generator at the
point it occurs, so a failing fetch immediately ends the run with that
error, the records already yielded stand, and no terminal value is
returned. -/
def loopE {ε : Type} : Nat → Nat → (Nat → Nat → Except ε (List Char)) →
    List Char → Nat → Nat → List Char → List (List Char) × Except ε (List Char)
  | 0, _, _, _, _, _, carry => ([], Except.ok carry)
  | n + 1, size, fetch, delim, bs, o, carry =>
    if o < size then
      let top := min (o + bs) size
      match fetch o top with
      | Except.error e => ([], Except.error e)
      | Except.ok chunk =>
        let s := scanChunk delim (carry ++ chunk)
        let r := loopE n size fetch delim bs (top + 1) s.2
        (s.1 ++ r.1, r.2)
    else ([], Except.ok carry)

/-- Whole error-aware run of the main variant's `getLines`: the size query
(`headObject`) may itself fail, in which case the generator raises before
yielding anything.  Returns the records yielded before the outcome,
together with either the terminal value or the propagated error. -/
def getLinesE {ε : Type} (headE : Except ε Nat)
    (fetch : Nat → Nat → Except ε (List Char)) (delim : List Char)
    (bs : Nat) : List (List Char) × Except ε (List Char) :=
  match headE with
  | Except.error e => ([], Except.error e)
  | Except.ok size => loopE size size fetch delim bs 0 []

/-- Fetch oracle that answers with the true content slice for fetches
starting strictly before byte `failAt`, and fails with `e` from `failAt`
on: a range fetch that dies partway through the object. -/
def failingFetch {ε : Type} (content : List Char) (failAt : Nat) (e : ε) :
    Nat → Nat → Except ε (List Char) :=
  fun o top =>
    if failAt ≤ o then Except.error e
    else Except.ok ((content.drop o).take (top + 1 - o))

/-- Reader state of the options-object variant (`src/unnamed/part_000`):
`byteOffset`, the carry (the code's `this.partial`) and `size` as in the
main variant, plus the configured delimiter and buffer size and the cached
generator reference (`this.generator`).  Generator objects are modelled as
handles drawn from the allocation counter `nextGen`, so that "the same
generator object" is "the same handle". -/
structure ReaderP0 where
  bucket : String
  key : String
  lineDelimiter : String
  bufferSize : Nat
  byteOffset : Nat
  carry : String
  size : Nat
  generator : Option Nat
  nextGen : Nat

/-- Constructor of `src/unnamed/part_000` (lines 22–26):

```
constructor(bucket, key,
    config: { s3Config?; bufferSize?; lineDelimiter? } = {}) {
  this.s3 = new S3(config.s3Config || {});
  this.lineDelimiter = config.lineDelimiter || this.lineDelimiter;
  this.bufferSize = config.bufferSize || this.bufferSize;
}
```

JS `||` keeps the field defaults (`'\n'`, `1024 * 128`) whenever the
configured value is falsy — absent, the empty string, or 0.  The optional
config entries are modelled as `Option`s; construction performs no
validation and never fails. -/
def mkReaderP0 (bucket key : String) (lineDelimiter : Option String)
    (bufferSize : Option Nat) : ReaderP0 :=
  { bucket := bucket
    key := key
    lineDelimiter :=
      match lineDelimiter with
      | some d => if d = "" then "\n" else d
      | none => "\n"
    bufferSize :=
      match bufferSize with
      | some b => if b = 0 then 1024 * 128 else b
      | none => 1024 * 128
    byteOffset := 0
    carry := ""
    size := 0
    generator := none
    nextGen := 0 }

/-- Method `getLines` of `src/unnamed/part_000` (lines 43–46):

```
public getLines(): AsyncGenerator<string, string, unknown> {
  if (!this.generator) this.generator = this.getLinesGenerator();
  return this.generator;
}
```

Creating the generator object allocates a fresh handle; the method itself
performs no fetch and touches no other state — in particular it never
resets `byteOffset` or the carry. -/
def getLinesCached (r : ReaderP0) : Nat × ReaderP0 :=
  match r.generator with
  | some g => (g, r)
  | none =>
    (r.nextGen,
     { r with generator := some r.nextGen, nextGen := r.nextGen + 1 })

/-- Reader state of the main variant (`src/s3-line-reader.ts`, lines 3–6). -/
structure ReaderMain where
  bucket : String
  key : String
  bufferSize : Nat
  byteOffset : Nat
  carry : String
  size : Nat

/-- Constructor of `src/s3-line-reader.ts` (lines 18–20): stores the
supplied configuration unchanged.  There is no validation of any kind — a
zero (non-positive) `bufferSize` is stored as given — and construction
never fails. -/
def mkReaderMain (bucket key : String) (bufferSize : Nat) : ReaderMain :=
  { bucket := bucket, key := key, bufferSize := bufferSize,
    byteOffset := 0, carry := "", size := 0 }

lemma jsIndexOf_nil {delim : List Char} (h : delim ≠ []) :
    jsIndexOf delim [] = none := by
  match delim, h with
  | d :: ds, _ => simp [jsIndexOf, List.isPrefixOf]

lemma jsIndexOf_some_prefix {delim data : List Char} {p : Nat}
    (h : jsIndexOf delim data = some p) : delim <+: data.drop p := by
  induction data generalizing p with
  | nil =>
    rw [jsIndexOf] at h
    split at h
    · obtain rfl : (0 : Nat) = p := Option.some.inj h
      exact List.isPrefixOf_iff_prefix.mp ‹_›
    · simp at h
  | cons c rest ih =>
    rw [jsIndexOf] at h
    split at h
    · obtain rfl : (0 : Nat) = p := Option.some.inj h
      exact List.isPrefixOf_iff_prefix.mp ‹_›
    · obtain ⟨q, hq, rfl⟩ := Option.map_eq_some'.mp h
      simpa using ih hq

lemma jsIndexOf_some_bound {delim data : List Char} {p : Nat}
    (h : jsIndexOf delim data = some p) :
    p + delim.length ≤ data.length := by
  induction data generalizing p with
  | nil =>
    rw [jsIndexOf] at h
    split at h
    · obtain rfl : (0 : Nat) = p := Option.some.inj h
      have hpre : delim <+: ([] : List Char) := List.isPrefixOf_iff_prefix.mp ‹_›
      have := hpre.length_le
      simpa using this
    · simp at h
  | cons c rest ih =>
    rw [jsIndexOf] at h
    split at h
    · obtain rfl : (0 : Nat) = p := Option.some.inj h
      have hpre : delim <+: c :: rest := List.isPrefixOf_iff_prefix.mp ‹_›
      simpa using hpre.length_le
    · obtain ⟨q, hq, rfl⟩ := Option.map_eq_some'.mp h
      have := ih hq
      simp only [List.length_cons]
      omega

lemma jsIndexOf_append_some {delim a : List Char} {p : Nat}
    (h : jsIndexOf delim a = some p) (b : List Char) :
    jsIndexOf delim (a ++ b) = some p := by
  induction a generalizing p with
  | nil =>
    by_cases hδ : delim = []
    · subst hδ
      have hp : p = 0 := by
        rw [jsIndexOf] at h
        have ht : ([] : List Char).isPrefixOf [] = true := rfl
        rw [if_pos ht] at h
        exact (Option.some.inj h).symm
      subst hp
      have ht : ([] : List Char).isPrefixOf b = true := by cases b <;> rfl
      rw [List.nil_append, jsIndexOf.eq_def, if_pos ht]
    · rw [jsIndexOf_nil hδ] at h
      exact Option.noConfusion h
  | cons c rest ih =>
    rw [jsIndexOf] at h
    split at h
    · obtain rfl : (0 : Nat) = p := Option.some.inj h
      have hpre : delim <+: c :: rest := List.isPrefixOf_iff_prefix.mp ‹_›
      have ht : delim.isPrefixOf (c :: (rest ++ b)) = true :=
        List.isPrefixOf_iff_prefix.mpr (hpre.trans (List.prefix_append _ b))
      rw [List.cons_append, jsIndexOf, if_pos ht]
    · obtain ⟨q, hq, rfl⟩ := Option.map_eq_some'.mp h
      have hnp : ¬ delim.isPrefixOf (c :: rest) = true := ‹_›
      have hlen : q + delim.length ≤ rest.length := jsIndexOf_some_bound hq
      have hnp2 : ¬ delim.isPrefixOf (c :: (rest ++ b)) = true := by
        intro hyp
        apply hnp
        have hpre : delim <+: (c :: rest) ++ b := List.isPrefixOf_iff_prefix.mp hyp
        have htake : delim = ((c :: rest) ++ b).take delim.length :=
          List.prefix_iff_eq_take.mp hpre
        have hle : delim.length ≤ (c :: rest).length := by
          simp only [List.length_cons]; omega
        rw [List.take_append_of_le_length hle] at htake
        exact List.isPrefixOf_iff_prefix.mpr
          (List.prefix_iff_eq_take.mpr htake)
      rw [List.cons_append, jsIndexOf, if_neg hnp2]
      show (jsIndexOf delim (rest ++ b)).map (· + 1) = some (q + 1)
      rw [ih hq]
      rfl

lemma scanF_eq {delim : List Char} (hδ : delim ≠ []) :
    ∀ (n m : Nat) (data : List Char), data.length ≤ n → data.length ≤ m →
      scanF n delim data = scanF m delim data := by
  intro n
  induction n with
  | zero =>
    intro m data hn _
    have : data = [] := List.length_eq_zero.mp (Nat.le_zero.mp hn)
    subst this
    cases m with
    | zero => rfl
    | succ m => simp [scanF]
  | succ n ih =>
    intro m data hn hm
    cases m with
    | zero =>
      have : data = [] := List.length_eq_zero.mp (Nat.le_zero.mp hm)
      subst this
      simp [scanF]
    | succ m =>
      by_cases hd : data = []
      · subst hd; simp [scanF]
      · rw [scanF, scanF]
        simp only [hd, if_false]
        cases hidx : jsIndexOf delim data with
        | none => rfl
        | some p =>
          have hlen : 1 ≤ delim.length := by
            cases delim with
            | nil => exact absurd rfl hδ
            | cons x xs => simp
          have hdl : 1 ≤ data.length := by
            cases data with
            | nil => exact absurd rfl hd
            | cons x xs => simp
          have h1 : (data.drop (p + delim.length)).length ≤ n := by
            simp only [List.length_drop]; omega
          have h2 : (data.drop (p + delim.length)).length ≤ m := by
            simp only [List.length_drop]; omega
          simp only [ih m (data.drop (p + delim.length)) h1 h2]

lemma scanChunk_none {delim data : List Char}
    (h : jsIndexOf delim data = none) : scanChunk delim data = ([], data) := by
  unfold scanChunk
  cases data with
  | nil => simp [scanF]
  | cons c rest => simp [scanF, h]

lemma scanChunk_nil (delim : List Char) : scanChunk delim [] = ([], []) := by
  simp [scanChunk, scanF]

lemma scanChunk_some {delim data : List Char} {p : Nat} (hδ : delim ≠ [])
    (h : jsIndexOf delim data = some p) :
    scanChunk delim data =
      (data.take p :: (scanChunk delim (data.drop (p + delim.length))).1,
       (scanChunk delim (data.drop (p + delim.length))).2) := by
  have hd : data ≠ [] := by
    intro hnil
    subst hnil
    rw [jsIndexOf_nil hδ] at h
    exact Option.noConfusion h
  have hdl : 1 ≤ data.length := by
    cases data with
    | nil => exact absurd rfl hd
    | cons x xs => simp
  have hlen : 1 ≤ delim.length := by
    cases delim with
    | nil => exact absurd rfl hδ
    | cons x xs => simp
  unfold scanChunk
  obtain ⟨k, hk⟩ : ∃ k, data.length = k + 1 := ⟨data.length - 1, by omega⟩
  rw [hk, scanF]
  simp only [hd, if_false, h]
  have : scanF k delim (data.drop (p + delim.length)) =
      scanF (data.drop (p + delim.length)).length delim
        (data.drop (p + delim.length)) := by
    apply scanF_eq hδ
    · simp only [List.length_drop]; omega
    · exact le_rfl
  rw [this]

lemma scanChunk_append {delim : List Char} (hδ : delim ≠ []) (a b : List Char) :
    scanChunk delim (a ++ b) =
      ((scanChunk delim a).1 ++ (scanChunk delim ((scanChunk delim a).2 ++ b)).1,
       (scanChunk delim ((scanChunk delim a).2 ++ b)).2) := by
  have hδ1 : 1 ≤ delim.length := List.length_pos.mpr hδ
  suffices H : ∀ (n : Nat) (a : List Char), a.length ≤ n →
      scanChunk delim (a ++ b) =
        ((scanChunk delim a).1 ++ (scanChunk delim ((scanChunk delim a).2 ++ b)).1,
         (scanChunk delim ((scanChunk delim a).2 ++ b)).2) from
    H a.length a le_rfl
  intro n
  induction n with
  | zero =>
    intro a ha
    have : a = [] := List.length_eq_zero.mp (Nat.le_zero.mp ha)
    subst this
    simp [scanChunk_nil]
  | succ n ih =>
    intro a ha
    cases hidx : jsIndexOf delim a with
    | none =>
      rw [scanChunk_none hidx]
      simp
    | some p =>
      have hb : jsIndexOf delim (a ++ b) = some p := jsIndexOf_append_some hidx b
      have hbound := jsIndexOf_some_bound hidx
      rw [scanChunk_some hδ hidx, scanChunk_some hδ hb]
      have h1 : (a ++ b).take p = a.take p :=
        List.take_append_of_le_length (by omega)
      have h2 : (a ++ b).drop (p + delim.length) = a.drop (p + delim.length) ++ b :=
        List.drop_append_of_le_length (by omega)
      rw [h1, h2]
      have ha2 : (a.drop (p + delim.length)).length ≤ n := by
        simp only [List.length_drop]
        omega
      rw [ih (a.drop (p + delim.length)) ha2]
      simp

lemma scanChunk_carry {delim : List Char} (hδ : delim ≠ []) (d : List Char) :
    jsIndexOf delim (scanChunk delim d).2 = none := by
  have hδ1 : 1 ≤ delim.length := List.length_pos.mpr hδ
  suffices H : ∀ (n : Nat) (d : List Char), d.length ≤ n →
      jsIndexOf delim (scanChunk delim d).2 = none from H d.length d le_rfl
  intro n
  induction n with
  | zero =>
    intro d hd
    have : d = [] := List.length_eq_zero.mp (Nat.le_zero.mp hd)
    subst this
    rw [scanChunk_nil]
    exact jsIndexOf_nil hδ
  | succ n ih =>
    intro d hd
    cases hidx : jsIndexOf delim d with
    | none => rw [scanChunk_none hidx]; exact hidx
    | some p =>
      have hbound := jsIndexOf_some_bound hidx
      rw [scanChunk_some hδ hidx]
      exact ih (d.drop (p + delim.length)) (by simp only [List.length_drop]; omega)

lemma scanChunk_reconstruct {delim : List Char} (hδ : delim ≠ []) (d : List Char) :
    reconstructOut delim (scanChunk delim d).1 (scanChunk delim d).2 = d := by
  have hδ1 : 1 ≤ delim.length := List.length_pos.mpr hδ
  suffices H : ∀ (n : Nat) (d : List Char), d.length ≤ n →
      reconstructOut delim (scanChunk delim d).1 (scanChunk delim d).2 = d from
    H d.length d le_rfl
  intro n
  induction n with
  | zero =>
    intro d hd
    have : d = [] := List.length_eq_zero.mp (Nat.le_zero.mp hd)
    subst this
    rw [scanChunk_nil]
    rfl
  | succ n ih =>
    intro d hd
    cases hidx : jsIndexOf delim d with
    | none => rw [scanChunk_none hidx]; rfl
    | some p =>
      have hbound := jsIndexOf_some_bound hidx
      rw [scanChunk_some hδ hidx]
      show d.take p ++ delim ++
        reconstructOut delim (scanChunk delim (d.drop (p + delim.length))).1
          (scanChunk delim (d.drop (p + delim.length))).2 = d
      rw [ih (d.drop (p + delim.length)) (by simp only [List.length_drop]; omega)]
      obtain ⟨t, ht⟩ := jsIndexOf_some_prefix hidx
      have hdrop : d.drop (p + delim.length) = t := by
        have h1 : (d.drop p).drop delim.length = d.drop (p + delim.length) :=
          List.drop_drop delim.length p d
        rw [← h1, ← ht, List.drop_left]
      rw [hdrop]
      conv_rhs => rw [← List.take_append_drop p d, ← ht]
      simp

lemma loopF_eq (content delim : List Char) (bs : Nat) :
    ∀ (n m o : Nat) (carry : List Char),
      content.length - o ≤ n → content.length - o ≤ m →
      loopF n content delim bs o carry = loopF m content delim bs o carry := by
  intro n
  induction n with
  | zero =>
    intro m o carry hn _
    have ho : ¬ o < content.length := by omega
    cases m with
    | zero => rfl
    | succ m => simp [loopF, ho]
  | succ n ih =>
    intro m o carry hn hm
    cases m with
    | zero =>
      have ho : ¬ o < content.length := by omega
      simp [loopF, ho]
    | succ m =>
      by_cases ho : o < content.length
      · simp only [loopF, if_pos ho]
        rw [ih m (min (o + bs) content.length + 1) _ (by omega) (by omega)]
      · simp [loopF, ho]

lemma loopF_scan {delim : List Char} (hδ : delim ≠ []) (content : List Char)
    (bs : Nat) :
    ∀ (n o : Nat) (carry : List Char), content.length - o ≤ n →
      jsIndexOf delim carry = none →
      (loopF n content delim bs o carry).1 =
        scanChunk delim (carry ++ content.drop o) := by
  intro n
  induction n with
  | zero =>
    intro o carry hn hc
    have ho : content.length ≤ o := by omega
    rw [List.drop_eq_nil_of_le ho, List.append_nil, scanChunk_none hc]
    rfl
  | succ n ih =>
    intro o carry hn hc
    by_cases ho : o < content.length
    · have hsplit : content.drop o =
          (content.drop o).take (min (o + bs) content.length + 1 - o) ++
            content.drop (min (o + bs) content.length + 1) := by
        have h1 : content.drop (min (o + bs) content.length + 1) =
            (content.drop o).drop (min (o + bs) content.length + 1 - o) := by
          rw [List.drop_drop]
          congr 1
          omega
        rw [h1, List.take_append_drop]
      have hchunk : carry ++ content.drop o =
          (carry ++ (content.drop o).take (min (o + bs) content.length + 1 - o)) ++
            content.drop (min (o + bs) content.length + 1) := by
        rw [List.append_assoc, ← hsplit]
      rw [hchunk, scanChunk_append hδ]
      simp only [loopF, if_pos ho]
      rw [ih (min (o + bs) content.length + 1) _ (by omega) (scanChunk_carry hδ _)]
    · have hole : content.length ≤ o := by omega
      rw [List.drop_eq_nil_of_le hole, List.append_nil, scanChunk_none hc]
      simp [loopF, ho]

lemma getLines_eq_scanChunk {delim : List Char} (hδ : delim ≠ [])
    (content : List Char) (bs : Nat) :
    getLines content delim bs = scanChunk delim content := by
  unfold getLines getLinesFull
  rw [loopF_scan hδ content bs content.length 0 [] (by omega) (jsIndexOf_nil hδ)]
  simp

lemma single_isPrefixOf (ch c : Char) (l : List Char) :
    ([ch].isPrefixOf (c :: l) = true) ↔ ch = c := by
  cases l with
  | nil => simp [List.isPrefixOf]
  | cons x xs => simp [List.isPrefixOf]

lemma jsIndexOf_single_cons (ch c : Char) (l : List Char) :
    jsIndexOf [ch] (c :: l) =
      if ch = c then some 0 else (jsIndexOf [ch] l).map (· + 1) := by
  rw [jsIndexOf]
  by_cases h : ch = c
  · rw [if_pos ((single_isPrefixOf ch c l).mpr h), if_pos h]
  · rw [if_neg (fun hyp => h ((single_isPrefixOf ch c l).mp hyp)), if_neg h]

lemma jsIndexOf_single_append_none {ch : Char} {a b : List Char}
    (ha : jsIndexOf [ch] a = none) (hb : jsIndexOf [ch] b = none) :
    jsIndexOf [ch] (a ++ b) = none := by
  induction a with
  | nil => simpa using hb
  | cons c rest ih =>
    rw [jsIndexOf_single_cons] at ha
    by_cases hc : ch = c
    · rw [if_pos hc] at ha
      exact Option.noConfusion ha
    · rw [if_neg hc] at ha
      have hrest : jsIndexOf [ch] rest = none := Option.map_eq_none'.mp ha
      rw [List.cons_append, jsIndexOf_single_cons, if_neg hc, ih hrest]
      rfl

lemma jsIndexOf_single_append_some {ch : Char} {a d : List Char} {q : Nat}
    (ha : jsIndexOf [ch] a = none) (hd : jsIndexOf [ch] d = some q) :
    jsIndexOf [ch] (a ++ d) = some (a.length + q) := by
  induction a with
  | nil => simpa using hd
  | cons c rest ih =>
    rw [jsIndexOf_single_cons] at ha
    by_cases hc : ch = c
    · rw [if_pos hc] at ha
      exact Option.noConfusion ha
    · rw [if_neg hc] at ha
      have hrest : jsIndexOf [ch] rest = none := Option.map_eq_none'.mp ha
      rw [List.cons_append, jsIndexOf_single_cons, if_neg hc, ih hrest]
      simp only [Option.map_some', Option.some.injEq, List.length_cons]
      omega

lemma scanVF_single {ch : Char} :
    ∀ (f : Nat) (carry data : List Char),
      jsIndexOf [ch] carry = none →
      2 * (carry.length + data.length) + 2 ≤ f →
      scanVF f [ch] carry data = scanChunk [ch] (carry ++ data) := by
  intro f
  induction f with
  | zero =>
    intro carry data _ hf
    exact absurd hf (by omega)
  | succ f ih =>
    intro carry data hc hf
    by_cases hd : data = []
    · subst hd
      rw [scanVF, if_pos rfl, List.append_nil, scanChunk_none hc]
    · cases hidx : jsIndexOf [ch] data with
      | none =>
        have hcomb : jsIndexOf [ch] (carry ++ data) = none :=
          jsIndexOf_single_append_none hc hidx
        simp only [scanVF, if_neg hd, hidx, hcomb]
        rw [scanChunk_none hcomb]
      | some q =>
        have hch : ([ch] : List Char) ≠ [] := List.cons_ne_nil ch []
        have hcomb : jsIndexOf [ch] (carry ++ data) = some (carry.length + q) :=
          jsIndexOf_single_append_some hc hidx
        have hbound := jsIndexOf_some_bound hidx
        simp only [List.length_singleton] at hbound
        simp only [scanVF, if_neg hd, hidx]
        rw [scanChunk_some hch hcomb]
        simp only [List.length_singleton]
        have htake : (carry ++ data).take (carry.length + q) =
            carry ++ data.take q := by rw [List.take_append]
        have hdrop : (carry ++ data).drop (carry.length + q + 1) =
            data.drop (q + 1) := by
          have h9 : carry.length + q + 1 = carry.length + (q + 1) := by omega
          rw [h9, List.drop_append]
        rw [htake, hdrop,
          ih [] (data.drop (q + 1)) (jsIndexOf_nil hch)
            (by simp only [List.length_drop, List.length_nil]; omega)]
        by_cases hcn : carry = []
        · subst hcn
          simp
        · simp [hcn]

lemma loop2F_scan {ch : Char} (content : List Char) (bs : Nat) :
    ∀ (n o : Nat) (carry : List Char), content.length - o ≤ n →
      jsIndexOf [ch] carry = none →
      loop2F n content [ch] bs o carry =
        scanChunk [ch] (carry ++ content.drop o) := by
  have hch : ([ch] : List Char) ≠ [] := List.cons_ne_nil ch []
  intro n
  induction n with
  | zero =>
    intro o carry hn hc
    have ho : content.length ≤ o := by omega
    rw [List.drop_eq_nil_of_le ho, List.append_nil, scanChunk_none hc]
    rfl
  | succ n ih =>
    intro o carry hn hc
    by_cases ho : o < content.length
    · have hsplit : content.drop o =
          (content.drop o).take (min (o + bs) content.length + 1 - o) ++
            content.drop (min (o + bs) content.length + 1) := by
        have h1 : content.drop (min (o + bs) content.length + 1) =
            (content.drop o).drop (min (o + bs) content.length + 1 - o) := by
          rw [List.drop_drop]
          congr 1
          omega
        rw [h1, List.take_append_drop]
      have hchunk : carry ++ content.drop o =
          (carry ++ (content.drop o).take (min (o + bs) content.length + 1 - o)) ++
            content.drop (min (o + bs) content.length + 1) := by
        rw [List.append_assoc, ← hsplit]
      rw [hchunk, scanChunk_append hch]
      simp only [loop2F, if_pos ho]
      rw [show scanV [ch] carry
            ((content.drop o).take (min (o + bs) content.length + 1 - o)) =
          scanChunk [ch]
            (carry ++ (content.drop o).take (min (o + bs) content.length + 1 - o))
        from scanVF_single _ _ _ hc le_rfl]
      rw [ih (min (o + bs) content.length + 1) _ (by omega) (scanChunk_carry hch _)]
    · have hole : content.length ≤ o := by omega
      rw [List.drop_eq_nil_of_le hole, List.append_nil, scanChunk_none hc]
      simp [loop2F, ho]

lemma getLines2_eq_scanChunk (content : List Char) (ch : Char) (bs : Nat) :
    getLines2 content [ch] bs = scanChunk [ch] content := by
  unfold getLines2
  rw [loop2F_scan content bs content.length 0 [] (by omega)
    (jsIndexOf_nil (List.cons_ne_nil ch []))]
  simp

lemma reconstructOut_suffix (delim : List Char) (rs : List (List Char))
    (t : List Char) : ∃ x, reconstructOut delim rs t = x ++ t := by
  induction rs with
  | nil => exact ⟨[], rfl⟩
  | cons r rs ih =>
    obtain ⟨x, hx⟩ := ih
    refine ⟨r ++ delim ++ x, ?_⟩
    show r ++ delim ++ reconstructOut delim rs t = r ++ delim ++ x ++ t
    rw [hx]
    simp [List.append_assoc]

lemma reconstructOut_cons_delim (delim r : List Char) (rs : List (List Char))
    (t : List Char) :
    ∃ pre, reconstructOut delim (r :: rs) t = pre ++ delim ++ t := by
  induction rs generalizing r with
  | nil => exact ⟨r, rfl⟩
  | cons r2 rs ih =>
    obtain ⟨pre, hp⟩ := ih r2
    refine ⟨r ++ delim ++ pre, ?_⟩
    show r ++ delim ++ reconstructOut delim (r2 :: rs) t = _
    rw [hp]
    simp [List.append_assoc]

lemma jsIndexOf_single_of_mem {ch : Char} {t : List Char} (h : ch ∈ t) :
    jsIndexOf [ch] t ≠ none := by
  induction t with
  | nil => simp at h
  | cons c rest ih =>
    rw [jsIndexOf_single_cons]
    by_cases hc : ch = c
    · simp [hc]
    · rw [if_neg hc]
      intro hyp
      have hrest : ch ∈ rest := by
        rcases List.mem_cons.mp h with h1 | h2
        · exact absurd h1 hc
        · exact h2
      exact ih hrest (Option.map_eq_none'.mp hyp)

lemma loopF_trace (content delim : List Char) (bs : Nat) :
    ∀ (n o : Nat) (carry : List Char), content.length - o ≤ n →
      o ≤ content.length + 1 →
      List.Chain' (· < ·) (loopF n content delim bs o carry).2 ∧
      (loopF n content delim bs o carry).2.head? = some o ∧
      (∀ x ∈ (loopF n content delim bs o carry).2, x ≤ content.length + 1) ∧
      content.length ≤ (loopF n content delim bs o carry).2.getLastD 0 := by
  intro n
  induction n with
  | zero =>
    intro o carry hn hub
    have ho : content.length ≤ o := by omega
    refine ⟨by simp [loopF], by simp [loopF], ?_, ?_⟩
    · intro x hx
      simp [loopF] at hx
      omega
    · simp [loopF, List.getLastD]
      omega
  | succ n ih =>
    intro o carry hn hub
    by_cases ho : o < content.length
    · simp only [loopF, if_pos ho]
      obtain ⟨hch, hhd, hmem, hlast⟩ :=
        ih (min (o + bs) content.length + 1)
          (scanChunk delim
            (carry ++ (content.drop o).take (min (o + bs) content.length + 1 - o))).2
          (by omega) (by omega)
      refine ⟨?_, rfl, ?_, ?_⟩
      · rw [List.chain'_cons']
        refine ⟨?_, hch⟩
        intro b hb
        rw [hhd] at hb
        have hb2 : (o + bs) ⊓ content.length + 1 = b := by simpa using hb
        omega
      · intro x hx
        rcases List.mem_cons.mp hx with rfl | hx2
        · omega
        · exact hmem x hx2
      · rw [List.getLastD_cons]
        cases hr2 : (loopF n content delim bs (min (o + bs) content.length + 1)
            (scanChunk delim
              (carry ++
                (content.drop o).take (min (o + bs) content.length + 1 - o))).2).2 with
        | nil => rw [hr2] at hhd; exact absurd hhd (by simp)
        | cons a l =>
          rw [hr2] at hlast
          rw [List.getLastD_cons] at hlast ⊢
          exact hlast
    · have hole : content.length ≤ o := by omega
      refine ⟨by simp [loopF, ho], by simp [loopF, ho], ?_, ?_⟩
      · intro x hx
        simp [loopF, ho] at hx
        omega
      · simp [loopF, ho, List.getLastD]
        omega

lemma loopE_fail {ε : Type} (content delim : List Char) (bs : Nat) (e : ε) :
    ∀ (j n o : Nat) (carry : List Char),
      content.length - o ≤ n →
      o + j * (bs + 1) < content.length →
      loopE n content.length (failingFetch content (o + j * (bs + 1)) e)
          delim bs o carry =
        ((loopF n (content.take (o + j * (bs + 1))) delim bs o carry).1.1,
         Except.error e) := by
  intro j
  induction j with
  | zero =>
    intro n o carry hn hj
    simp only [Nat.zero_mul, Nat.add_zero] at hj ⊢
    obtain ⟨m, rfl⟩ : ∃ m, n = m + 1 := ⟨n - 1, by omega⟩
    have hfe : failingFetch content o e o (min (o + bs) content.length) =
        Except.error e := by
      simp [failingFetch]
    simp only [loopE, if_pos hj, hfe]
    have hno : ¬ o < (content.take o).length := by
      simp only [List.length_take]
      omega
    rw [loopF, if_neg hno]
  | succ j ih =>
    intro n o carry hn hj
    have hexp : (j + 1) * (bs + 1) = j * (bs + 1) + (bs + 1) := by ring
    rw [hexp] at hj ⊢
    have hlt : o < content.length := by omega
    obtain ⟨m, rfl⟩ : ∃ m, n = m + 1 := ⟨n - 1, by omega⟩
    have htop : min (o + bs) content.length = o + bs := by omega
    have hfo : failingFetch content (o + (j * (bs + 1) + (bs + 1))) e o
        (min (o + bs) content.length) =
        Except.ok ((content.drop o).take (min (o + bs) content.length + 1 - o)) := by
      simp only [failingFetch,
        if_neg (by omega : ¬ (o + (j * (bs + 1) + (bs + 1)) ≤ o))]
    simp only [loopE, if_pos hlt, hfo]
    have hlen2 : (content.take (o + (j * (bs + 1) + (bs + 1)))).length =
        o + (j * (bs + 1) + (bs + 1)) := by
      simp only [List.length_take]
      omega
    have ho2 : o < (content.take (o + (j * (bs + 1) + (bs + 1)))).length := by
      rw [hlen2]
      omega
    simp only [loopF, if_pos ho2]
    have htop2 : min (o + bs) (content.take (o + (j * (bs + 1) + (bs + 1)))).length
        = o + bs := by
      rw [hlen2]
      omega
    rw [htop, htop2]
    have hsub : o + bs + 1 - o = bs + 1 := by omega
    rw [hsub]
    have hchunk2 : ((content.take (o + (j * (bs + 1) + (bs + 1)))).drop o).take (bs + 1)
        = (content.drop o).take (bs + 1) := by
      rw [List.drop_take, List.take_take,
        min_eq_left (by omega : bs + 1 ≤ o + (j * (bs + 1) + (bs + 1)) - o)]
    rw [hchunk2]
    have harg : o + (j * (bs + 1) + (bs + 1)) = o + bs + 1 + j * (bs + 1) := by
      ring
    rw [harg]
    rw [ih m (o + bs + 1)
      (scanChunk delim (carry ++ (content.drop o).take (bs + 1))).2
      (by omega) (by omega)]

/-- C1: for every object content, every non-empty delimiter and every
chunk size, re-joining the records yielded by `getLines` in order — with
one delimiter re-inserted between consecutive yielded values — and then
appending the terminal (final return) value reproduces the original object
content exactly: record splitting is lossless, including across the
inclusive-range/plus-one fetch arithmetic. -/
theorem claim1_roundtrip (content delim : List Char) (bs : Nat)
    (hδ : delim ≠ []) :
    reconstructOut delim (getLines content delim bs).1
      (getLines content delim bs).2 = content := by
  rw [getLines_eq_scanChunk hδ]
  exact scanChunk_reconstruct hδ content

theorem claim1_roundtrip_witness :
    reconstructOut "\n".toList (getLines "ab\ncd\ne".toList "\n".toList 3).1
      (getLines "ab\ncd\ne".toList "\n".toList 3).2 = "ab\ncd\ne".toList :=
  claim1_roundtrip "ab\ncd\ne".toList "\n".toList 3 (by decide)

/-- C2: for fixed content and fixed non-empty delimiter, the records and
terminal value produced by the main variant's `getLines` are identical for
every positive chunk size — whether smaller than, equal to, or larger than
the object. -/
theorem claim2_chunk_size_independent (content delim : List Char)
    (bs1 bs2 : Nat) (hδ : delim ≠ []) (_h1 : 0 < bs1) (_h2 : 0 < bs2) :
    getLines content delim bs1 = getLines content delim bs2 := by
  rw [getLines_eq_scanChunk hδ, getLines_eq_scanChunk hδ]

theorem claim2_chunk_size_independent_witness :
    getLines "a\nbb\nccc".toList "\n".toList 1 =
      getLines "a\nbb\nccc".toList "\n".toList 100 :=
  claim2_chunk_size_independent "a\nbb\nccc".toList "\n".toList 1 100
    (by decide) (by decide) (by decide)

/-- C3: a delimiter split across a chunk boundary is detected as exactly
one occurrence: content "This is the first line\r\nThis is the second
line" with delimiter "\r\n" and chunk size 22 (so the first fetch ends
with the '\r' and the next begins with the '\n') yields the single record
"This is the first line" and the terminal value "This is the second line"
— in both implementation variants. -/
theorem claim3_straddling_delimiter :
    getLines "This is the first line\r\nThis is the second line".toList
        "\r\n".toList 22 =
      (["This is the first line".toList], "This is the second line".toList) ∧
    getLines2 "This is the first line\r\nThis is the second line".toList
        "\r\n".toList 22 =
      (["This is the first line".toList], "This is the second line".toList) :=
  ⟨rfl, rfl⟩

/-- C4 counterexample: the object "xaaa" ends exactly on the delimiter
"aa" (it is "xa" ++ "aa"), yet the run's terminal value is "a", not the
empty string: the left-to-right scan consumes the overlapping occurrence
at position 1 and leaves the trailing "a".  This refutes the sub-claim
that the terminal value is empty whenever the object ends exactly on a
delimiter. -/
theorem claim4_counterexample :
    "xaaa".toList = "xa".toList ++ "aa".toList ∧
    getLines "xaaa".toList "aa".toList 100 = (["x".toList], "a".toList) ∧
    (getLines "xaaa".toList "aa".toList 100).2 ≠ [] :=
  ⟨rfl, rfl, by decide⟩

/-- C4 amended: every run returns exactly one terminal value, namely the
delimiter-free remainder left after the greedy scan: if the content has no
delimiter occurrence the whole object is the terminal value and no record
is yielded; the terminal value contains no delimiter occurrence; when
records were yielded the terminal value is the trailing bytes after the
last consumed delimiter; and for a single-character delimiter (where
occurrences cannot overlap) an object ending on the delimiter has an empty
terminal value.  (For self-overlapping multi-character delimiters the
terminal value can be non-empty even though the object ends on a
delimiter, as the counterexample shows.) -/
theorem claim4_terminal (content delim : List Char) (bs : Nat)
    (hδ : delim ≠ []) :
    (jsIndexOf delim content = none →
      getLines content delim bs = ([], content)) ∧
    jsIndexOf delim (getLines content delim bs).2 = none ∧
    ((getLines content delim bs).1 ≠ [] →
      ∃ pre, content = pre ++ delim ++ (getLines content delim bs).2) ∧
    (∀ ch pre, delim = [ch] → content = pre ++ delim →
      (getLines content delim bs).2 = []) := by
  rw [getLines_eq_scanChunk hδ]
  refine ⟨fun hnone => scanChunk_none hnone, scanChunk_carry hδ content, ?_, ?_⟩
  · intro hne
    have hrec := scanChunk_reconstruct hδ content
    cases hr : (scanChunk delim content).1 with
    | nil => exact absurd hr hne
    | cons r rs =>
      rw [hr] at hrec
      obtain ⟨pre, hp⟩ :=
        reconstructOut_cons_delim delim r rs (scanChunk delim content).2
      exact ⟨pre, (hp.symm.trans hrec).symm⟩
  · rintro ch pre rfl hc
    by_contra hne
    have hfree : jsIndexOf [ch] (scanChunk [ch] content).2 = none :=
      scanChunk_carry hδ content
    have hsuf : ∃ x, content = x ++ (scanChunk [ch] content).2 := by
      have hrec := scanChunk_reconstruct hδ content
      obtain ⟨x, hx⟩ := reconstructOut_suffix [ch] (scanChunk [ch] content).1
        (scanChunk [ch] content).2
      exact ⟨x, (hx.symm.trans hrec).symm⟩
    obtain ⟨x, hx⟩ := hsuf
    have h1 : content.getLast? = some ch := by
      rw [hc]
      exact List.getLast?_concat pre
    cases htl : (scanChunk [ch] content).2.getLast? with
    | none => exact hne (List.getLast?_eq_none_iff.mp htl)
    | some a =>
      have h2 : content.getLast? = some a := by
        rw [hx, List.getLast?_append, htl]
        rfl
      have ha : a = ch := by
        rw [h1] at h2
        exact (Option.some.inj h2).symm
      subst ha
      exact jsIndexOf_single_of_mem
        (List.mem_of_mem_getLast? (Option.mem_def.mpr htl)) hfree

theorem claim4_terminal_witness :
    getLines "abc".toList "\n".toList 131072 = ([], "abc".toList) :=
  (claim4_terminal "abc".toList "\n".toList 131072 (by decide)).1 (by decide)

/-- C5: calling the options-variant reader's `getLines` again returns the
same cached generator handle, not a fresh one: the second call returns
exactly the first call's handle and leaves the state unchanged, and no
call resets the cursor (`byteOffset`) or the carry or performs a fetch —
so the progression is shared and cannot be restarted without constructing
a new reader. -/
theorem claim5_same_generator (r : ReaderP0) :
    (getLinesCached (getLinesCached r).2).1 = (getLinesCached r).1 ∧
    (getLinesCached (getLinesCached r).2).2 = (getLinesCached r).2 ∧
    ((getLinesCached r).2).byteOffset = r.byteOffset ∧
    ((getLinesCached r).2).carry = r.carry := by
  cases hg : r.generator with
  | some g => simp [getLinesCached, hg]
  | none => simp [getLinesCached, hg]

/-- C6 counterexample: for the 1-byte object "a" with chunkSize 1 the
cursor trace is [0, 2]: after the single inclusive-range fetch the cursor
is set to byteOffsetTop + 1 = totalSize + 1 = 2, which exceeds
totalSize = 1 — refuting the claimed invariant cursor ≤ totalSize (and the
claim that the cursor reaches exactly totalSize on exhaustion). -/
theorem claim6_counterexample :
    cursorTrace "a".toList "\n".toList 1 = [0, 2] ∧
    ∃ x ∈ cursorTrace "a".toList "\n".toList 1,
      ("a" : String).toList.length < x :=
  ⟨rfl, 2, by decide, by decide⟩

/-- C6 amended: after initialization the cursor starts at 0, increases
strictly monotonically, and never exceeds totalSize + 1 (not totalSize:
the final advance past the clamped inclusive fetch top can leave it at
totalSize + 1); once the run ends the final cursor value is at least
totalSize, i.e. the object is exhausted. -/
theorem claim6_cursor (content delim : List Char) (bs : Nat) :
    List.Chain' (· < ·) (cursorTrace content delim bs) ∧
    (cursorTrace content delim bs).head? = some 0 ∧
    (∀ x ∈ cursorTrace content delim bs, x ≤ content.length + 1) ∧
    content.length ≤ (cursorTrace content delim bs).getLastD 0 :=
  loopF_trace content delim bs content.length 0 [] (by omega) (by omega)

theorem claim6_cursor_witness :
    (2 : Nat) ∈ cursorTrace "a".toList "\n".toList 1 ∧
    (2 : Nat) ≤ ("a" : String).toList.length + 1 :=
  ⟨by decide, (claim6_cursor "a".toList "\n".toList 1).2.2.1 2 (by decide)⟩

/-- C7 counterexample: construction does not fail fast on an empty
delimiter or a non-positive chunk size — there is no ConfigurationError in
the code and no validation at all.  The positional-variant constructor
accepts chunk size 0 and stores it unchanged, so a reader with a
non-positive chunk size can be constructed; the options-variant
constructor accepts an empty delimiter and chunk size 0 and silently
replaces them with the defaults via JS falsy-coalescing instead of
raising. -/
theorem claim7_counterexample :
    (mkReaderMain "b" "k" 0).bufferSize = 0 ∧
    (mkReaderP0 "b" "k" (some "") (some 0)).lineDelimiter = "\n" ∧
    (mkReaderP0 "b" "k" (some "") (some 0)).bufferSize = 1024 * 128 :=
  ⟨rfl, rfl, rfl⟩

/-- C7 amended: construction never fails and validates nothing: the
positional variant stores any supplied chunk size unchanged — including
the non-positive 0 — with fresh cursor state, and the options variant
silently substitutes the defaults ('\n', 128 KiB) for falsy values (empty
delimiter, zero chunk size, or absent entries) rather than raising a
ConfigurationError. -/
theorem claim7_construction (b k : String) (bs : Nat) (ld : Option String)
    (ob : Option Nat) :
    (mkReaderMain b k bs).bufferSize = bs ∧
    (mkReaderMain b k bs).byteOffset = 0 ∧
    (mkReaderMain b k bs).carry = "" ∧
    (mkReaderP0 b k (some "") ob).lineDelimiter = "\n" ∧
    (mkReaderP0 b k none ob).lineDelimiter = "\n" ∧
    (mkReaderP0 b k ld (some 0)).bufferSize = 1024 * 128 ∧
    (mkReaderP0 b k ld none).bufferSize = 1024 * 128 :=
  ⟨rfl, rfl, rfl, rfl, rfl, rfl, rfl⟩

/-- C8: a failing size query propagates immediately with no records and no
terminal value; and when a range fetch fails partway through the object
(all fetches before byte k*(bs+1) succeed, that one fails), the run stops
at exactly that point with the error: the records already yielded are
exactly the records of a pure run over the successfully fetched prefix —
they remain valid and are not retracted — no terminal value is produced,
and no retry occurs (the loop consults the oracle once and surfaces the
error directly). -/
theorem claim8_failure {ε : Type} (content delim : List Char) (bs k : Nat)
    (e : ε) (hk : k * (bs + 1) < content.length) :
    getLinesE (Except.error e) (failingFetch content (k * (bs + 1)) e)
        delim bs = ([], Except.error e) ∧
    getLinesE (Except.ok content.length)
        (failingFetch content (k * (bs + 1)) e) delim bs =
      ((getLines (content.take (k * (bs + 1))) delim bs).1,
       Except.error e) := by
  constructor
  · rfl
  · show loopE content.length content.length
        (failingFetch content (k * (bs + 1)) e) delim bs 0 [] = _
    have h0 : k * (bs + 1) = 0 + k * (bs + 1) := by ring
    rw [h0]
    rw [loopE_fail content delim bs e k content.length 0 []
      (by omega) (by omega)]
    unfold getLines getLinesFull
    rw [loopF_eq (content.take (0 + k * (bs + 1))) delim bs content.length
      ((content.take (0 + k * (bs + 1))).length) 0 []
      (by simp only [List.length_take]; omega) (by omega)]

theorem claim8_failure_witness :
    getLinesE (Except.error 7) (failingFetch "ab\ncd\nef".toList 3 7)
        "\n".toList 2 = ([], Except.error 7) ∧
    getLinesE (Except.ok ("ab\ncd\nef" : String).toList.length)
        (failingFetch "ab\ncd\nef".toList 3 7) "\n".toList 2 =
      ((getLines ("ab\ncd\nef".toList.take 3) "\n".toList 2).1,
       Except.error 7) := by
  have h := @claim8_failure Nat "ab\ncd\nef".toList "\n".toList 2 1 7
    (by decide)
  simpa using h

/-- C9 counterexample: the two variants are not behaviorally equivalent.
On content "XYabab" with delimiter "ab" and chunk size 2 (fetches of 3
bytes: "XYa" then "bab"), the prepend-then-scan variant yields the records
["XY", ""] while the incremental variant yields the single record "XYab" —
it misses the delimiter occurrence straddling the chunk boundary because a
later occurrence exists inside the second chunk, and even emits a record
containing the delimiter. -/
theorem claim9_counterexample :
    getLines "XYabab".toList "ab".toList 2 = (["XY".toList, []], []) ∧
    getLines2 "XYabab".toList "ab".toList 2 = (["XYab".toList], []) ∧
    getLines2 "XYabab".toList "ab".toList 2 ≠
      getLines "XYabab".toList "ab".toList 2 :=
  ⟨rfl, rfl, by decide⟩

/-- C9 amended: the two variants agree for every content and chunk size
when the delimiter is a single character (then no occurrence can straddle
a chunk boundary); for multi-character delimiters they can differ, as the
counterexample shows. -/
theorem claim9_single_char_equivalent (content : List Char) (ch : Char)
    (bs : Nat) :
    getLines2 content [ch] bs = getLines content [ch] bs := by
  rw [getLines2_eq_scanChunk,
    getLines_eq_scanChunk (List.cons_ne_nil ch []) content bs]

/-- C10: `getLines` terminates for every finite object, chunk size and
non-empty delimiter: the outer fetch loop stabilizes at fuel
`content.length` (the cursor strictly increases, so granting any more fuel
changes nothing and the record list is finite), and non-emptiness of the
delimiter is essential — with the empty delimiter the inner scan matches
at position 0 without consuming input and never stabilizes: its record
count equals whatever fuel it is given. -/
theorem claim10_termination :
    (∀ (content delim : List Char) (bs n : Nat), delim ≠ [] →
      content.length ≤ n →
      loopF n content delim bs 0 [] = getLinesFull content delim bs) ∧
    (∀ (d : List Char) (n : Nat), d ≠ [] →
      (scanF n [] d).1.length = n) := by
  constructor
  · intro content delim bs n _ hn
    exact loopF_eq content delim bs n content.length 0 [] (by omega) (by omega)
  · intro d n hd
    induction n with
    | zero => rfl
    | succ n ih =>
      rw [scanF, if_neg hd]
      have h0 : jsIndexOf [] d = some 0 := by
        rw [jsIndexOf.eq_def, if_pos (by cases d <;> rfl)]
      simp only [h0]
      simp [ih]

theorem claim10_termination_witness :
    loopF 5 "a\nb".toList "\n".toList 2 0 [] =
      getLinesFull "a\nb".toList "\n".toList 2 ∧
    (scanF 4 [] "abc".toList).1.length = 4 :=
  ⟨claim10_termination.1 "a\nb".toList "\n".toList 2 5 (by decide) (by decide),
   claim10_termination.2 "abc".toList 4 (by decide)⟩

end S3Readline
